import Mathlib

/-!
# Verification of the utzip archive engine against its specification

Shallow embedding, in Lean 4, of the parts of the utzip source that the
specification's claims are about:

* MS-DOS date/time encoding (`src/utils/common.rs`, `get_file_modification_time`)
  and its decoding (`src/zip.rs`, `ZipFile::last_modified`);
* the ZIP64 extended-information codec (`src/zip.rs`, `Zip64ExtendedInfo`);
* the staged-archive move (`src/utils/common.rs`, `safe_move_file`);
* glob pattern matching and filters (`src/utils/common.rs`, `match_pattern`,
  `apply_filters`);
* compression-option handling (`src/zip.rs`, `FileOptions`).

Machine integers are modelled as `Nat`/`Int` with explicit `% 2^w` where the
Rust code truncates (`as u16`, shifts on fixed-width integers).
-/

namespace Utzip

/-! ## Local date-time values

A local calendar date-time, as obtained from `chrono::DateTime<Local>` field
accessors (`year()`, `month()`, `day()`, `hour()`, `minute()`, `second()`).
`chrono` guarantees `1 ≤ month ≤ 12`, `1 ≤ day ≤ 31`, `hour ≤ 23`,
`minute ≤ 59`, `second ≤ 59`; the structure itself carries no bounds, the
theorems take them as hypotheses. -/
structure LocalDateTime where
  year : Int
  month : Nat
  day : Nat
  hour : Nat
  minute : Nat
  second : Nat
deriving DecidableEq

/-- Embedding of `get_file_modification_time` (src/utils/common.rs:330-347),
applied to the local-time components of the file's modification time.

Rust source, with `u16` truncation made explicit as `% 65536`:
`time = ((hour as u16) << 11) | ((minute as u16) << 5) | ((second as u16) >> 1)`,
`date = (((year - 1980) as u16) << 9) | ((month as u16) << 5) | (day as u16)`.
`(year - 1980) as u16` is the two's-complement truncation of an `i32`,
i.e. `(year - 1980).emod 65536`. -/
def get_file_modification_time (dt : LocalDateTime) : Nat × Nat :=
  let time : Nat :=
    (((dt.hour % 65536) <<< 11) % 65536) |||
    (((dt.minute % 65536) <<< 5) % 65536) |||
    ((dt.second % 65536) >>> 1)
  let date : Nat :=
    ((((dt.year - 1980) % 65536).toNat <<< 9) % 65536) |||
    (((dt.month % 65536) <<< 5) % 65536) |||
    (dt.day % 65536)
  (time, date)

/-- Embedding of the MS-DOS field extraction performed by
`ZipFile::last_modified` (src/zip.rs:630-648):
`hour = (time >> 11) & 0x1F`, `minute = (time >> 5) & 0x3F`,
`second = (time & 0x1F) * 2`, `day = date & 0x1F`,
`month = (date >> 5) & 0xF`, `year = (date >> 9) + 1980`. -/
def last_modified_fields (mod_time mod_date : Nat) : LocalDateTime where
  year := ((mod_date >>> 9) + 1980 : Nat)
  month := (mod_date >>> 5) &&& 0xF
  day := mod_date &&& 0x1F
  hour := (mod_time >>> 11) &&& 0x1F
  minute := (mod_time >>> 5) &&& 0x3F
  second := (mod_time &&& 0x1F) * 2

end Utzip

namespace Utzip

/-- C6: for modification times with calendar year at least 1980, the encoder
produces `time = (hour<<11)|(minute<<5)|(second/2)` and
`date = ((year-1980)<<9)|(month<<5)|day`, the shifts and ors being the `u16`
arithmetic of the source; the `u16` truncation of the date shows up as the
year field being taken modulo 2^7 (for every year up to 2107 the formula is
exact).  Seconds are stored divided by two, so the low bit is lost. -/
theorem get_file_modification_time_dos_format (dt : LocalDateTime)
    (hy : 1980 ≤ dt.year) (hmo : dt.month ≤ 12) (hd : dt.day ≤ 31)
    (hh : dt.hour ≤ 23) (hmi : dt.minute ≤ 59) (hs : dt.second ≤ 59) :
    get_file_modification_time dt =
      (((dt.hour <<< 11) ||| (dt.minute <<< 5) ||| (dt.second / 2)),
       ((((dt.year - 1980).toNat % 128) <<< 9) ||| (dt.month <<< 5) ||| dt.day)) := by
  obtain ⟨y, mo, d, h, mi, s⟩ := dt
  simp only [get_file_modification_time] at *
  have e1 : ((h % 65536) <<< 11) % 65536 = h <<< 11 := by
    simp only [Nat.shiftLeft_eq]; norm_num; omega
  have e2 : ((mi % 65536) <<< 5) % 65536 = mi <<< 5 := by
    simp only [Nat.shiftLeft_eq]; norm_num; omega
  have e3 : (s % 65536) >>> 1 = s / 2 := by
    simp only [Nat.shiftRight_eq_div_pow]; norm_num; omega
  have e4 : (((y - 1980) % 65536).toNat <<< 9) % 65536
      = ((y - 1980).toNat % 128) <<< 9 := by
    simp only [Nat.shiftLeft_eq]; norm_num; omega
  have e5 : ((mo % 65536) <<< 5) % 65536 = mo <<< 5 := by
    simp only [Nat.shiftLeft_eq]; norm_num; omega
  have e6 : d % 65536 = d := by omega
  rw [e1, e2, e3, e4, e5, e6]

/-- Witness for `get_file_modification_time_dos_format` at 2024-05-01 12:34:56. -/
theorem get_file_modification_time_dos_format_witness :
    get_file_modification_time ⟨2024, 5, 1, 12, 34, 56⟩ =
      ((((12:Nat) <<< 11) ||| ((34:Nat) <<< 5) ||| (56 / 2)),
       ((((2024 - 1980 : Int).toNat % 128) <<< 9) ||| ((5:Nat) <<< 5) ||| 1)) :=
  get_file_modification_time_dos_format ⟨2024, 5, 1, 12, 34, 56⟩
    (by decide) (by decide) (by decide) (by decide) (by decide) (by decide)

/-- C5: the code does NOT clamp pre-1980 modification times to
1980-01-01 00:00:00 (which would be `time = 0`, `date = (0<<9)|(1<<5)|1 = 33`).
At local time 1979-12-31 23:59:58 the subtraction `year - 1980 = -1` is
truncated by `as u16` to 65535, whose shifted-in year bits wrap to 127
(read back as year 2107): the encoder returns `(49021, 65439)`. -/
theorem pre1980_not_clamped :
    get_file_modification_time ⟨1979, 12, 31, 23, 59, 58⟩ = (49021, 65439) ∧
    get_file_modification_time ⟨1979, 12, 31, 23, 59, 58⟩ ≠
      (0, ((0:Nat) <<< 9) ||| ((1:Nat) <<< 5) ||| 1) := by
  constructor <;> decide

/-- C10: decoding with the field extraction of `ZipFile::last_modified`
inverts the MS-DOS encoding of `get_file_modification_time` for every valid
local date-time with year in 1980..=2107 and an even seconds value. -/
theorem last_modified_inverts_encoding (dt : LocalDateTime)
    (hy : 1980 ≤ dt.year) (hy2 : dt.year ≤ 2107)
    (hmo1 : 1 ≤ dt.month) (hmo : dt.month ≤ 12)
    (hd1 : 1 ≤ dt.day) (hd : dt.day ≤ 31)
    (hh : dt.hour ≤ 23) (hmi : dt.minute ≤ 59) (hs : dt.second ≤ 59)
    (hse : dt.second % 2 = 0) :
    last_modified_fields (get_file_modification_time dt).1
      (get_file_modification_time dt).2 = dt := by
  obtain ⟨y, mo, d, h, mi, s⟩ := dt
  simp only at hy hy2 hmo1 hmo hd1 hd hh hmi hs hse
  have htime : (get_file_modification_time ⟨y, mo, d, h, mi, s⟩).1
      = h * 2048 + mi * 32 + s / 2 := by
    show (((h % 65536) <<< 11) % 65536) ||| (((mi % 65536) <<< 5) % 65536) |||
        ((s % 65536) >>> 1) = h * 2048 + mi * 32 + s / 2
    have e1 : ((h % 65536) <<< 11) % 65536 = 2 ^ 11 * h := by
      simp only [Nat.shiftLeft_eq]; norm_num; omega
    have e2 : ((mi % 65536) <<< 5) % 65536 = mi * 32 := by
      simp only [Nat.shiftLeft_eq]; norm_num; omega
    have e3 : (s % 65536) >>> 1 = s / 2 := by
      simp only [Nat.shiftRight_eq_div_pow]; norm_num; omega
    rw [e1, e2, e3]
    have h1 : 2 ^ 11 * h ||| mi * 32 = 2 ^ 11 * h + mi * 32 :=
      (Nat.mul_add_lt_is_or (by norm_num; omega) h).symm
    rw [h1]
    have h2 : 2 ^ 11 * h + mi * 32 = 2 ^ 5 * (h * 64 + mi) := by ring
    rw [h2]
    have h3 : 2 ^ 5 * (h * 64 + mi) ||| s / 2 = 2 ^ 5 * (h * 64 + mi) + s / 2 :=
      (Nat.mul_add_lt_is_or (by norm_num; omega) (h * 64 + mi)).symm
    rw [h3]; ring
  have hdate : (get_file_modification_time ⟨y, mo, d, h, mi, s⟩).2
      = (y - 1980).toNat * 512 + mo * 32 + d := by
    show ((((y - 1980) % 65536).toNat <<< 9) % 65536) |||
        (((mo % 65536) <<< 5) % 65536) ||| (d % 65536)
      = (y - 1980).toNat * 512 + mo * 32 + d
    have e4 : (((y - 1980) % 65536).toNat <<< 9) % 65536
        = 2 ^ 9 * (y - 1980).toNat := by
      simp only [Nat.shiftLeft_eq]; norm_num; omega
    have e5 : ((mo % 65536) <<< 5) % 65536 = mo * 32 := by
      simp only [Nat.shiftLeft_eq]; norm_num; omega
    have e6 : d % 65536 = d := by omega
    rw [e4, e5, e6]
    have h1 : 2 ^ 9 * (y - 1980).toNat ||| mo * 32
        = 2 ^ 9 * (y - 1980).toNat + mo * 32 :=
      (Nat.mul_add_lt_is_or (by norm_num; omega) _).symm
    rw [h1]
    have h2 : 2 ^ 9 * (y - 1980).toNat + mo * 32
        = 2 ^ 5 * ((y - 1980).toNat * 16 + mo) := by ring
    rw [h2]
    have h3 : 2 ^ 5 * ((y - 1980).toNat * 16 + mo) ||| d
        = 2 ^ 5 * ((y - 1980).toNat * 16 + mo) + d :=
      (Nat.mul_add_lt_is_or (by norm_num; omega) _).symm
    rw [h3]; ring
  have hyn : (y - 1980).toNat ≤ 127 := by omega
  simp only [last_modified_fields, htime, hdate, LocalDateTime.mk.injEq]
  have hsr : ∀ a k : Nat, a >>> k = a / 2 ^ k := fun a k => Nat.shiftRight_eq_div_pow a k
  have hm5 : ∀ a : Nat, a &&& 0x1F = a % 2 ^ 5 := fun a =>
    Nat.and_pow_two_sub_one_eq_mod a 5
  have hm6 : ∀ a : Nat, a &&& 0x3F = a % 2 ^ 6 := fun a =>
    Nat.and_pow_two_sub_one_eq_mod a 6
  have hm4 : ∀ a : Nat, a &&& 0xF = a % 2 ^ 4 := fun a =>
    Nat.and_pow_two_sub_one_eq_mod a 4
  refine ⟨?_, ?_, ?_, ?_, ?_, ?_⟩
  · rw [hsr]; norm_num; omega
  · rw [hsr, hm4]; norm_num; omega
  · rw [hm5]; norm_num; omega
  · rw [hsr, hm5]; norm_num; omega
  · rw [hsr, hm6]; norm_num; omega
  · rw [hm5]; norm_num; omega

/-- Witness for `last_modified_inverts_encoding` at 1999-08-07 06:05:04. -/
theorem last_modified_inverts_encoding_witness :
    last_modified_fields (get_file_modification_time ⟨1999, 8, 7, 6, 5, 4⟩).1
      (get_file_modification_time ⟨1999, 8, 7, 6, 5, 4⟩).2 = ⟨1999, 8, 7, 6, 5, 4⟩ :=
  last_modified_inverts_encoding ⟨1999, 8, 7, 6, 5, 4⟩ (by decide) (by decide)
    (by decide) (by decide) (by decide) (by decide) (by decide) (by decide)
    (by decide) (by decide)

/-! ## The ZIP64 extended-information codec (src/zip.rs) -/

/-- `u64::to_le_bytes`: little-endian byte list (each entry models a `u8`). -/
def u64_le_bytes (v : Nat) : List Nat :=
  [v % 256, v / 2 ^ 8 % 256, v / 2 ^ 16 % 256, v / 2 ^ 24 % 256,
   v / 2 ^ 32 % 256, v / 2 ^ 40 % 256, v / 2 ^ 48 % 256, v / 2 ^ 56 % 256]

/-- `u32::to_le_bytes`. -/
def u32_le_bytes (v : Nat) : List Nat :=
  [v % 256, v / 2 ^ 8 % 256, v / 2 ^ 16 % 256, v / 2 ^ 24 % 256]

/-- `uN::from_le_bytes` on a little-endian byte list. -/
def nat_of_le_bytes (bs : List Nat) : Nat :=
  bs.foldr (fun b acc => b + 256 * acc) 0

/-- `Zip64ExtendedInfo` (src/zip.rs:87-93); sizes/offset are `u64`, disk
number is `u32`, all optional. -/
structure Zip64ExtendedInfo where
  uncompressed_size : Option Nat
  compressed_size : Option Nat
  local_header_offset : Option Nat
  disk_start_number : Option Nat
deriving DecidableEq

/-- Embedding of `Zip64ExtendedInfo::to_bytes` (src/zip.rs:102-132): for each
of the three 64-bit fields, in the fixed order uncompressed-size,
compressed-size, local-header-offset, the 8-byte little-endian value is
appended when the corresponding `*_max` flag is set and the field is present;
a present disk number is always appended as 4 bytes. -/
def Zip64ExtendedInfo.to_bytes (info : Zip64ExtendedInfo)
    (uncompressed_max compressed_max offset_max : Bool) : List Nat :=
  (if uncompressed_max then
    match info.uncompressed_size with
    | some v => u64_le_bytes v
    | none => []
   else []) ++
  (if compressed_max then
    match info.compressed_size with
    | some v => u64_le_bytes v
    | none => []
   else []) ++
  (if offset_max then
    match info.local_header_offset with
    | some v => u64_le_bytes v
    | none => []
   else []) ++
  (match info.disk_start_number with
   | some v => u32_le_bytes v
   | none => [])

/-- Embedding of `Zip64ExtendedInfo::from_bytes` (src/zip.rs:155-177): the
fields present are determined purely by the data length (len ≥ 8 / 16 / 24 /
28), read consecutively.  The source returns `anyhow::Result`, but the only
fallible steps are `try_into` calls on slices whose length is exactly 8 (or
4) under the guards, so the function cannot in fact fail and is modelled
total. -/
def Zip64ExtendedInfo.from_bytes (data : List Nat) : Zip64ExtendedInfo where
  uncompressed_size :=
    if 8 ≤ data.length then some (nat_of_le_bytes (data.take 8)) else none
  compressed_size :=
    if 16 ≤ data.length then some (nat_of_le_bytes ((data.drop 8).take 8)) else none
  local_header_offset :=
    if 24 ≤ data.length then some (nat_of_le_bytes ((data.drop 16).take 8)) else none
  disk_start_number :=
    if 28 ≤ data.length then some (nat_of_le_bytes ((data.drop 24).take 4)) else none

/-- `MAX_ZIP_SIZE` (src/zip.rs:37): 2^32 − 1, the 32-bit format limit. -/
def MAX_ZIP_SIZE : Nat := 0xFFFFFFFF

/-- Compression methods (src/zip.rs:41-47). -/
inductive CompressionMethod where
  | Stored
  | Deflated
  | Bzip2
deriving DecidableEq

/-- `CentralDirectoryHeader` (src/zip.rs:195-215); byte-vector fields are
byte lists, fixed-width integers are `Nat` (u16/u32 as stored). -/
structure CentralDirectoryHeader where
  version_made : Nat
  version_needed : Nat
  flags : Nat
  compression : CompressionMethod
  mod_time : Nat
  mod_date : Nat
  crc32 : Nat
  compressed_size : Nat
  uncompressed_size : Nat
  filename : List Nat
  extra_field : List Nat
  file_comment : List Nat
  disk_num : Nat
  internal_attr : Nat
  external_attr : Nat
  local_header_offset : Nat
  zip64_extended_info : Option Zip64ExtendedInfo
deriving DecidableEq

/-- `CentralDirectoryHeader::get_uncompressed_size` (src/zip.rs:238-243). -/
def CentralDirectoryHeader.get_uncompressed_size (h : CentralDirectoryHeader) : Nat :=
  (h.zip64_extended_info.bind (fun info => info.uncompressed_size)).getD h.uncompressed_size

/-- `CentralDirectoryHeader::get_compressed_size` (src/zip.rs:245-250). -/
def CentralDirectoryHeader.get_compressed_size (h : CentralDirectoryHeader) : Nat :=
  (h.zip64_extended_info.bind (fun info => info.compressed_size)).getD h.compressed_size

/-- `CentralDirectoryHeader::get_local_header_offset` (src/zip.rs:252-257). -/
def CentralDirectoryHeader.get_local_header_offset (h : CentralDirectoryHeader) : Nat :=
  (h.zip64_extended_info.bind (fun info => info.local_header_offset)).getD h.local_header_offset

/-- `CentralDirectoryHeader::needs_zip64` (src/zip.rs:228-236). -/
def CentralDirectoryHeader.needs_zip64 (h : CentralDirectoryHeader) : Bool :=
  decide (MAX_ZIP_SIZE < h.get_uncompressed_size) ||
  decide (MAX_ZIP_SIZE < h.get_compressed_size) ||
  decide (MAX_ZIP_SIZE < h.get_local_header_offset)

/-- Modelled from the spec: the central-directory serializer of the archive
writer is missing from `src/` (the codec types `Zip64ExtendedInfo` and
`CentralDirectoryHeader` are present, but no caller of `to_bytes` is).  Per
the spec, "if any of {uncompressed size, compressed size, local offset}
exceeds 2³²−1, the central-directory header stores 0xFFFFFFFF in that slot
and the true 64-bit value appears in the ZIP64 extra field (tag 0x0001) in a
fixed order matching which fields were promoted."  Given the true 64-bit
values, the builder stores each 32-bit slot as the value itself when it fits
and 0xFFFFFFFF otherwise, records exactly the promoted fields in a
`Zip64ExtendedInfo`, and emits the extra-field payload with the source's
`Zip64ExtendedInfo.to_bytes`.  Returns the header and the payload. -/
def build_central_directory_zip64 (uncompressed compressed offset : Nat) :
    CentralDirectoryHeader × List Nat :=
  let info : Zip64ExtendedInfo :=
    { uncompressed_size := if MAX_ZIP_SIZE < uncompressed then some uncompressed else none
      compressed_size := if MAX_ZIP_SIZE < compressed then some compressed else none
      local_header_offset := if MAX_ZIP_SIZE < offset then some offset else none
      disk_start_number := none }
  let promoted : Bool :=
    decide (MAX_ZIP_SIZE < uncompressed) || decide (MAX_ZIP_SIZE < compressed) ||
    decide (MAX_ZIP_SIZE < offset)
  let hdr : CentralDirectoryHeader :=
    { version_made := 0x031E, version_needed := 0x0A, flags := 0
      compression := .Stored, mod_time := 0, mod_date := 0, crc32 := 0
      compressed_size := if MAX_ZIP_SIZE < compressed then MAX_ZIP_SIZE else compressed
      uncompressed_size := if MAX_ZIP_SIZE < uncompressed then MAX_ZIP_SIZE else uncompressed
      filename := [], extra_field := [], file_comment := []
      disk_num := 0, internal_attr := 0, external_attr := 0
      local_header_offset := if MAX_ZIP_SIZE < offset then MAX_ZIP_SIZE else offset
      zip64_extended_info := if promoted then some info else none }
  (hdr, info.to_bytes (decide (MAX_ZIP_SIZE < uncompressed))
    (decide (MAX_ZIP_SIZE < compressed)) (decide (MAX_ZIP_SIZE < offset)))

/-- C1 (amended): the ZIP64 extra-field payload built for a central-directory
entry contains the 8-byte little-endian value of exactly those fields among
{uncompressed-size, compressed-size, local-header-offset} whose true value
exceeds 2³²−1, in that canonical order; each 32-bit slot holds the sentinel
0xFFFFFFFF exactly when the true value is at least 0xFFFFFFFF (a value equal
to 0xFFFFFFFF stores the sentinel bit pattern without being promoted, so the
claim's "slot = sentinel iff value exceeds 2³²−1" fails only there); and
`needs_zip64` holds exactly when some field was promoted. -/
theorem zip64_promotion_layout (u c o : Nat) :
    (build_central_directory_zip64 u c o).2 =
      (if MAX_ZIP_SIZE < u then u64_le_bytes u else []) ++
      (if MAX_ZIP_SIZE < c then u64_le_bytes c else []) ++
      (if MAX_ZIP_SIZE < o then u64_le_bytes o else []) ∧
    ((build_central_directory_zip64 u c o).1.uncompressed_size = 0xFFFFFFFF ↔
      0xFFFFFFFF ≤ u) ∧
    ((build_central_directory_zip64 u c o).1.compressed_size = 0xFFFFFFFF ↔
      0xFFFFFFFF ≤ c) ∧
    ((build_central_directory_zip64 u c o).1.local_header_offset = 0xFFFFFFFF ↔
      0xFFFFFFFF ≤ o) ∧
    (build_central_directory_zip64 u c o).1.needs_zip64 =
      (decide (MAX_ZIP_SIZE < u) || decide (MAX_ZIP_SIZE < c) ||
       decide (MAX_ZIP_SIZE < o)) := by
  refine ⟨?_, ?_, ?_, ?_, ?_⟩ <;>
    simp only [build_central_directory_zip64, Zip64ExtendedInfo.to_bytes,
      CentralDirectoryHeader.needs_zip64, CentralDirectoryHeader.get_uncompressed_size,
      CentralDirectoryHeader.get_compressed_size,
      CentralDirectoryHeader.get_local_header_offset, MAX_ZIP_SIZE] <;>
    split_ifs <;>
    simp_all [MAX_ZIP_SIZE] <;>
    omega

/-- C1, counterexample to the claim as stated: for a field whose true value
is exactly 0xFFFFFFFF = 2³²−1, the 32-bit slot holds the sentinel bit pattern
0xFFFFFFFF, yet the value does not exceed 2³²−1 and the ZIP64 payload
contains no 8-byte value for it — refuting the claim's parenthetical
equivalence between "slot holds 0xFFFFFFFF" and "value exceeds 2³²−1". -/
theorem zip64_sentinel_without_promotion :
    (build_central_directory_zip64 0xFFFFFFFF 0 0).1.uncompressed_size = 0xFFFFFFFF ∧
    ¬ (2 ^ 32 - 1 : Nat) < 0xFFFFFFFF ∧
    (build_central_directory_zip64 0xFFFFFFFF 0 0).2 = [] := by
  refine ⟨by decide, by decide, by decide⟩

/-- C2: `from_bytes` is NOT a left inverse of `to_bytes` on selective
layouts.  Failing input: an entry whose only promoted field is the
local-header offset (true offset 2³², sizes small).  `to_bytes` emits the
8-byte offset alone; `from_bytes`, which keys fields purely off the data
length, reads those bytes back as the *uncompressed size* and reports the
offset as absent — the opposite of what the spec's selective layout
requires. -/
theorem from_bytes_misparses_selective_offset :
    Zip64ExtendedInfo.from_bytes
        (Zip64ExtendedInfo.to_bytes ⟨none, none, some 4294967296, none⟩
          false false true) =
      ⟨some 4294967296, none, none, none⟩ := by
  decide

/-! ## Staged-archive move (src/utils/common.rs, `safe_move_file`)

`safe_move_file` is all filesystem effects; it is embedded as a function of
an explicit filesystem state (source and destination file contents) and an
oracle fixing the outcome of each filesystem call, returning the result, the
final state and the trace of calls made. -/

/-- Content of a file at the destination path: a complete copy of some
content id, or a truncated remnant left by a copy that failed midway. -/
inductive FileContent where
  | whole (id : Nat)
  | truncated
deriving DecidableEq

/-- Source and destination of the move; `none` = no file at that path. -/
structure FsState where
  src : Option Nat
  dst : Option FileContent
deriving DecidableEq

/-- Outcomes of the filesystem calls `safe_move_file` can make.
`rename_err = none` means `fs::rename` succeeds; `some e` means it fails
with `raw_os_error() = e` (itself an `Option` of the errno). When
`fs::copy` fails, `copy_leaves_remnant` says whether a truncated file was
left at the destination (a copy can fail before or after creating it). -/
structure FsOracle where
  rename_err : Option (Option Int)
  copy_ok : Bool
  copy_leaves_remnant : Bool
  remove_src_ok : Bool
  remove_dst_ok : Bool
deriving DecidableEq

/-- The filesystem calls `safe_move_file` makes, in order. -/
inductive FsAction where
  | rename
  | copy
  | removeSrc
  | removeDst
deriving DecidableEq

/-- Result of `safe_move_file` (`Ok(())` or the `anyhow` error returned). -/
inductive MoveResult where
  | ok
  | renameFailed (e : Option Int)
  | copyFailed
  | removeFailed
deriving DecidableEq

/-- Embedding of `safe_move_file` (src/utils/common.rs:18-84).  Control flow
of the source: try `fs::rename`; on success done.  On error with
`raw_os_error() == Some(18)` (EXDEV) fall back to `fs::copy`; if the copy
succeeds, `fs::remove_file(from)`; if that removal fails, remove the copied
destination file (ignoring the outcome of that removal) and return an error.
If the copy fails, return an error (the destination is not touched).  On any
other rename error, return an error with no fallback. -/
def safe_move_file (st : FsState) (o : FsOracle) :
    MoveResult × FsState × List FsAction :=
  match o.rename_err with
  | none => (.ok, { src := none, dst := st.src.map .whole }, [.rename])
  | some e =>
    if e = some 18 then
      if o.copy_ok then
        let copied : FsState := { src := st.src, dst := st.src.map .whole }
        if o.remove_src_ok then
          (.ok, { copied with src := none }, [.rename, .copy, .removeSrc])
        else
          (.removeFailed,
           { copied with dst := if o.remove_dst_ok then none else copied.dst },
           [.rename, .copy, .removeSrc, .removeDst])
      else
        (.copyFailed,
         { st with dst := if o.copy_leaves_remnant then some .truncated else st.dst },
         [.rename, .copy])
    else
      (.renameFailed e, st, [.rename])

/-- C3, counterexample: when the rename fails with EXDEV and the fallback
copy fails leaving a truncated file at the destination, `safe_move_file`
returns an error without any removal of the destination — the failed
fallback leaves a partially-copied file there, refuting "rollback on copy
failure, so that a failed fallback leaves no partial file at the
destination". -/
theorem copy_failure_leaves_destination_remnant :
    (safe_move_file ⟨some 7, none⟩ ⟨some (some 18), false, true, true, true⟩).1 =
      .copyFailed ∧
    (safe_move_file ⟨some 7, none⟩ ⟨some (some 18), false, true, true, true⟩).2.1.dst =
      some .truncated ∧
    (safe_move_file ⟨some 7, none⟩
        ⟨some (some 18), false, true, true, true⟩).2.2.contains .removeDst = false := by
  refine ⟨by decide, by decide, by decide⟩

/-- C3 (amended): a plain rename is attempted first; exactly when it fails
with EXDEV (raw OS error 18) the move falls back to copying and then
removing the source.  The rollback — removal of the destination — is
attempted exactly when the copy succeeded but removing the source failed
(on copy failure an error is returned and the destination is not cleaned
up).  The move succeeds exactly when the rename succeeded, or the EXDEV
fallback copied and removed the source; for every other rename error no
fallback copy is attempted and an error is returned. -/
theorem safe_move_file_fallback_policy (st : FsState) (o : FsOracle) :
    (safe_move_file st o).2.2.contains .copy =
      (o.rename_err == some (some 18)) ∧
    (safe_move_file st o).2.2.contains .removeDst =
      ((o.rename_err == some (some 18)) && o.copy_ok && !o.remove_src_ok) ∧
    ((safe_move_file st o).1 == .ok) =
      ((o.rename_err == none) ||
       ((o.rename_err == some (some 18)) && o.copy_ok && o.remove_src_ok)) ∧
    (safe_move_file st o).2.2.contains .rename = true := by
  rcases o with ⟨re, cok, crem, rsok, rdok⟩
  rcases re with _ | e
  · simp [safe_move_file, List.contains]
  · by_cases he : e = some 18
    · subst he
      cases cok <;> cases rsok <;>
        simp [safe_move_file, List.contains]
    · cases cok <;> cases rsok <;>
        simp [safe_move_file, List.contains, he]

/-! ## Pattern matching (src/utils/common.rs, `match_pattern`)

The source builds a regex from the glob pattern —
`pattern.replace('*', ".*").replace('?', ".")` wrapped in `^…$` — and
delegates matching to the external `regex` crate.  The regex fragment that
matters is therefore: literal characters, `.` (any one character), and a
postfix `*` on an atom.  That fragment is modelled below (a fully anchored
backtracking matcher); regex metacharacters outside it (`^ $ + ( ) [ ] { }
| \`, which the substitution passes through untouched) are left unmodelled:
on such patterns the embedded `match_pattern` returns `none`. -/

/-- A regex atom of the modelled fragment: `.` or a literal character. -/
inductive RAtom where
  | dot
  | lit (c : Char)
deriving DecidableEq

/-- Whether an atom matches one character.  The `regex` crate's `.` matches
any character except a newline (the source sets no `(?s)` flag). -/
def atomMatch : RAtom → Char → Bool
  | .dot, c => c != '\n'
  | .lit c, c2 => c == c2

/-- One parsed regex token: an atom and whether it carries a postfix `*`. -/
abbrev RTok := RAtom × Bool

/-- Matching of a starred atom: try the continuation at the current suffix,
or consume one atom-matching character and repeat. -/
def starMatchAux (a : RAtom) (cont : List Char → Bool) : List Char → Bool
  | [] => cont []
  | c :: s => cont (c :: s) || (atomMatch a c && starMatchAux a cont s)

/-- Anchored matching of a parsed regex against a character list. -/
def reMatch : List RTok → List Char → Bool
  | [], s => s.isEmpty
  | (a, star) :: ps, s =>
    if star then starMatchAux a (fun t => reMatch ps t) s
    else
      match s with
      | [] => false
      | c :: s2 => atomMatch a c && reMatch ps s2

/-- `str::replace('*', ".*")` on the pattern. -/
def substStar : List Char → List Char
  | [] => []
  | c :: cs => (if c = '*' then ['.', '*'] else [c]) ++ substStar cs

/-- `str::replace('?', ".")` on the (already `*`-substituted) pattern. -/
def substQmark (cs : List Char) : List Char :=
  cs.map fun c => if c = '?' then '.' else c

/-- Parse one regex atom; metacharacters outside the modelled fragment give
`none` ('*' is handled by the token parser and is an error as an atom). -/
def atomOf (c : Char) : Option RAtom :=
  if c = '.' then some .dot
  else if c ∈ (['^', '$', '*', '+', '?', '(', ')', '[', ']',
                '{', '}', '|', '\\'] : List Char) then none
  else some (.lit c)

/-- Parse the modelled regex fragment into tokens: each atom optionally
followed by a postfix `*`. -/
def parseRegex : List Char → Option (List RTok)
  | [] => some []
  | c :: rest =>
    match atomOf c with
    | none => none
    | some a =>
      match rest with
      | [] => some [(a, false)]
      | r1 :: rest2 =>
        if r1 = '*' then (parseRegex rest2).map fun ts => (a, true) :: ts
        else (parseRegex (r1 :: rest2)).map fun ts => (a, false) :: ts

/-- Embedding of `match_pattern` (src/utils/common.rs:350-363).  With
`no_wildcards` set the source compares the strings directly; otherwise it
substitutes `*` ↦ `.*` and `?` ↦ `.` and matches the anchored regex.
`none` marks patterns outside the modelled regex fragment. -/
def match_pattern (name pattern : List Char) (no_wildcards : Bool) : Option Bool :=
  if no_wildcards then some (name == pattern)
  else (parseRegex (substQmark (substStar pattern))).map fun re => reMatch re name

/-- Matching of `*` under the spec's glob semantics: skip any run of
characters before the continuation. -/
def globStarAux (cont : List Char → Bool) : List Char → Bool
  | [] => cont []
  | c :: s => cont (c :: s) || globStarAux cont s

/-- Glob semantics exactly as the spec words them: `*` matches any run of
characters (path separators included), `?` matches exactly one character,
and every other character of the pattern matches only itself,
case-sensitively.  Arguments: pattern, then name. -/
def specGlobMatch : List Char → List Char → Bool
  | [], s => s.isEmpty
  | p :: ps, s =>
    if p = '*' then globStarAux (fun t => specGlobMatch ps t) s
    else
      match s with
      | [] => false
      | c :: s2 => (p == '?' || p == c) && specGlobMatch ps s2

/-- Declaratively, the `*` step of `specGlobMatch` matches any run of
characters: it succeeds exactly when some split of the remaining name lets
the rest of the pattern match the remainder. -/
theorem globStarAux_eq_true_iff (cont : List Char → Bool) (s : List Char) :
    globStarAux cont s = true ↔ ∃ s1 s2, s = s1 ++ s2 ∧ cont s2 = true := by
  induction s with
  | nil =>
    simp only [globStarAux]
    constructor
    · intro h
      exact ⟨[], [], rfl, h⟩
    · rintro ⟨s1, s2, he, hc⟩
      obtain ⟨rfl, rfl⟩ := List.append_eq_nil.mp he.symm
      exact hc
  | cons c s ih =>
    simp only [globStarAux, Bool.or_eq_true, ih]
    constructor
    · rintro (h | ⟨s1, s2, rfl, hc⟩)
      · exact ⟨[], c :: s, rfl, h⟩
      · exact ⟨c :: s1, s2, rfl, hc⟩
    · rintro ⟨s1, s2, he, hc⟩
      cases s1 with
      | nil =>
        simp only [List.nil_append] at he
        exact Or.inl (he ▸ hc)
      | cons a s1 =>
        simp only [List.cons_append, List.cons.injEq] at he
        exact Or.inr ⟨s1, s2, he.2, hc⟩

/-- Characters of a glob pattern that the substitution hands to the regex
engine with a meaning other than "match yourself literally". -/
def regexMetaChars : List Char :=
  ['.', '^', '$', '+', '(', ')', '[', ']', '{', '}', '|', '\\']

/-- The tokens the modelled fragment assigns to a glob pattern free of
`regexMetaChars`: `*` ↦ starred dot, `?` ↦ dot, anything else a literal. -/
def globToks (ps : List Char) : List RTok :=
  ps.map fun c =>
    if c = '*' then ((.dot : RAtom), true)
    else if c = '?' then ((.dot : RAtom), false)
    else ((.lit c : RAtom), false)

/-- Shape of the substituted pattern: it is empty exactly for the empty
pattern, and never starts with `*` (every `*` is emitted right after the
`.` of its own substitution). -/
theorem substQmark_substStar_shape (ps : List Char) :
    substQmark (substStar ps) = [] ∧ ps = [] ∨
    ∃ c r, substQmark (substStar ps) = c :: r ∧ c ≠ '*' := by
  cases ps with
  | nil => exact Or.inl ⟨rfl, rfl⟩
  | cons c cs =>
    refine Or.inr ?_
    by_cases hstar : c = '*'
    · subst hstar
      exact ⟨'.', '*' :: substQmark (substStar cs),
        by simp [substStar, substQmark], by decide⟩
    · by_cases hq : c = '?'
      · subst hq
        exact ⟨'.', substQmark (substStar cs),
          by simp [substStar, substQmark], by decide⟩
      · exact ⟨c, substQmark (substStar cs),
          by simp [substStar, substQmark, hstar, hq], hstar⟩

/-- Parsing the substituted form of a metacharacter-free glob pattern
succeeds and yields exactly its glob tokens. -/
theorem parseRegex_subst (ps : List Char) (h : ∀ c ∈ ps, c ∉ regexMetaChars) :
    parseRegex (substQmark (substStar ps)) = some (globToks ps) := by
  induction ps with
  | nil => rfl
  | cons c cs ih =>
    have ih' := ih fun x hx => h x (List.mem_cons_of_mem _ hx)
    have hc := h c (List.mem_cons_self _ _)
    by_cases hstar : c = '*'
    · subst hstar
      have htext : substQmark (substStar ('*' :: cs))
          = '.' :: '*' :: substQmark (substStar cs) := by
        simp [substStar, substQmark]
      rw [htext]
      simp [parseRegex, atomOf, ih', globToks]
    · by_cases hq : c = '?'
      · subst hq
        have htext : substQmark (substStar ('?' :: cs))
            = '.' :: substQmark (substStar cs) := by
          simp [substStar, substQmark]
        rw [htext]
        rcases substQmark_substStar_shape cs with ⟨h1, h2⟩ | ⟨c1, r, heq, hne⟩
        · subst h2
          decide
        · rw [heq]
          rw [heq] at ih'
          simp [parseRegex, atomOf, hne, ih', globToks]
      · have hmeta : c ∉ (['^', '$', '*', '+', '?', '(', ')', '[', ']',
            '{', '}', '|', '\\'] : List Char) := by
          simp only [regexMetaChars, List.mem_cons, not_or] at hc
          simp only [List.mem_cons, not_or]
          obtain ⟨h1, h2, h3, h4, h5, h6, h7, h8, h9, h10, h11, h12, -⟩ := hc
          refine ⟨h2, h3, hstar, h4, hq, h5, h6, h7, h8, h9, h10, h11, h12, ?_⟩
          simp
        have hdot : c ≠ '.' := by
          simp only [regexMetaChars, List.mem_cons, not_or] at hc
          exact hc.1
        have hato : atomOf c = some (.lit c) := by
          simp [atomOf, hdot, hmeta]
        have htext : substQmark (substStar (c :: cs))
            = c :: substQmark (substStar cs) := by
          simp [substStar, substQmark, hstar, hq]
        rw [htext]
        rcases substQmark_substStar_shape cs with ⟨h1, h2⟩ | ⟨c1, r, heq, hne⟩
        · subst h2
          simp [substStar, substQmark, parseRegex, hato, globToks, hstar, hq]
        · rw [heq]
          rw [heq] at ih'
          simp [parseRegex, hato, hne, ih', globToks, hstar, hq]

/-- A starred dot and the spec's `*` walk the same suffixes of a
newline-free string. -/
theorem starMatchAux_dot_eq_globStarAux (f g : List Char → Bool) (s : List Char)
    (hs : '\n' ∉ s) (hfg : ∀ t, '\n' ∉ t → f t = g t) :
    starMatchAux .dot f s = globStarAux g s := by
  induction s with
  | nil => simp [starMatchAux, globStarAux, hfg [] (by simp)]
  | cons c s ih =>
    have hc : c ≠ '\n' := fun e => hs (by simp [e])
    have hcb : (c != '\n') = true := by simp [hc]
    have hs2 : '\n' ∉ s := fun hx => hs (List.mem_cons_of_mem _ hx)
    simp [starMatchAux, globStarAux, atomMatch, hfg _ hs, ih hs2, hcb]

/-- On newline-free names, the modelled regex matcher on a pattern's glob
tokens agrees with the spec's glob semantics. -/
theorem reMatch_globToks (ps : List Char) :
    ∀ s : List Char, '\n' ∉ s → reMatch (globToks ps) s = specGlobMatch ps s := by
  induction ps with
  | nil => intro s hs; rfl
  | cons c cs ih =>
    intro s hs
    by_cases hstar : c = '*'
    · subst hstar
      show reMatch ((RAtom.dot, true) :: globToks cs) s = _
      simp only [reMatch, specGlobMatch, if_pos rfl, if_pos trivial]
      exact starMatchAux_dot_eq_globStarAux _ _ s hs ih
    · by_cases hq : c = '?'
      · subst hq
        show reMatch ((RAtom.dot, false) :: globToks cs) s = _
        cases s with
        | nil => simp [reMatch, specGlobMatch]
        | cons c2 s2 =>
          have hc2 : c2 ≠ '\n' := fun e => hs (by simp [e])
          have hs2 : '\n' ∉ s2 := fun hx => hs (List.mem_cons_of_mem _ hx)
          simp [reMatch, specGlobMatch, atomMatch, ih s2 hs2, hc2]
      · have hg : globToks (c :: cs) = (RAtom.lit c, false) :: globToks cs := by
          simp [globToks, hstar, hq]
        rw [hg]
        cases s with
        | nil => simp [reMatch, specGlobMatch, hstar]
        | cons c2 s2 =>
          have hs2 : '\n' ∉ s2 := fun hx => hs (List.mem_cons_of_mem _ hx)
          simp only [reMatch, specGlobMatch, if_neg hstar]
          have hcq : (c == '?') = false := by simp [hq]
          simp [atomMatch, ih s2 hs2, hcq]

/-- C4, counterexample: `.` in a pattern is passed to the regex untouched,
where it matches any single character; under the claimed glob semantics it
should match only a literal `.`.  With name `axb` and pattern `a.b`,
`match_pattern` returns true while glob semantics says no match. -/
theorem match_pattern_dot_counterexample :
    match_pattern ['a', 'x', 'b'] ['a', '.', 'b'] false = some true ∧
    specGlobMatch ['a', '.', 'b'] ['a', 'x', 'b'] = false := by
  refine ⟨by decide, by decide⟩

/-- C4 (amended): for every newline-free name and every pattern containing
no regex metacharacter (`. ^ $ + ( ) [ ] { } | \`), `match_pattern name
pattern false` returns true exactly when the name matches the pattern under
glob semantics: `*` matches any run of characters (path separators
included), `?` matches exactly one character, and every other character
matches only itself, case-sensitively.  (The regex `.` that `*` and `?`
compile to refuses a newline, hence the newline-free restriction.) -/
theorem match_pattern_glob_semantics (name pattern : List Char)
    (h : ∀ c ∈ pattern, c ∉ regexMetaChars) (hn : '\n' ∉ name) :
    match_pattern name pattern false = some (specGlobMatch pattern name) := by
  simp only [match_pattern]
  rw [parseRegex_subst pattern h]
  simp [reMatch_globToks pattern name hn]

/-- Witness for `match_pattern_glob_semantics`: pattern `src/*` matches
name `src/ab`. -/
theorem match_pattern_glob_semantics_witness :
    (∀ c ∈ (['s', 'r', 'c', '/', '*'] : List Char), c ∉ regexMetaChars) ∧
    '\n' ∉ (['s', 'r', 'c', '/', 'a', 'b'] : List Char) ∧
    match_pattern ['s', 'r', 'c', '/', 'a', 'b'] ['s', 'r', 'c', '/', '*'] false =
      some (specGlobMatch ['s', 'r', 'c', '/', '*'] ['s', 'r', 'c', '/', 'a', 'b']) :=
  ⟨by decide, by decide, match_pattern_glob_semantics _ _ (by decide) (by decide)⟩

/-! ## Filter application (src/utils/common.rs, `apply_filters`) -/

/-- `cli::Command` (src/cli.rs:539-549). -/
inductive Command where
  | Add
  | Delete
  | Update
  | Copy
  | List
  | Test
  | Fix
  | Adjust
deriving DecidableEq

/-- The fields of `cli::ZipArgs` that `apply_filters` reads:
`args.filter.include`, `args.filter.exclude`, `args.other.no_wildcards`,
`args.other.no_wildcards_boundary`, `args.command`. -/
structure ZipArgsModel where
  filterInclude : List (List Char)
  filterExclude : List (List Char)
  noWildcards : Bool
  noWildcardsBoundary : Bool
  command : Command

/-- `Iterator::any` over patterns with an `Option Bool` matcher (`none`
propagates "outside the modelled regex fragment"); stops at the first
`some true` like the Rust iterator. -/
def anyOpt : List (List Char) → (List Char → Option Bool) → Option Bool
  | [], _ => some false
  | p :: ps, f =>
    match f p with
    | none => none
    | some true => some true
    | some false => anyOpt ps f

/-- The per-pattern closure of the external (filesystem-side) branch of
`apply_filters` (src/utils/common.rs:406-419 and 422-434): when
`no_wildcards_boundary` is set and the pattern contains `*` or `?`, the name
must contain exactly as many `/` as the pattern, otherwise the pattern does
not match; in every other case plain `match_pattern` decides. -/
def boundary_rule (name p : List Char) (noWildcards noWildcardsBoundary : Bool) :
    Option Bool :=
  if noWildcardsBoundary && (p.contains '*' || p.contains '?') then
    if name.count '/' == p.count '/' then match_pattern name p noWildcards
    else some false
  else match_pattern name p noWildcards

/-- Embedding of `apply_filters` (src/utils/common.rs:366-439).  For archive
files: Delete uses the exclude list only; Copy combines include and exclude;
other commands return true.  For filesystem files: include (empty list
accepts everything) and exclude are combined, each pattern matched through
`boundary_rule`.  A `none` from the matcher propagates. -/
def apply_filters (name : List Char) (args : ZipArgsModel)
    (is_archive_file : Bool) : Option Bool :=
  if is_archive_file then
    if args.command = .Delete then
      anyOpt args.filterExclude fun p => match_pattern name p args.noWildcards
    else if args.command = .Copy then
      match (if args.filterInclude.isEmpty then some true
             else anyOpt args.filterInclude fun p =>
               match_pattern name p args.noWildcards),
            anyOpt args.filterExclude
              (fun p => match_pattern name p args.noWildcards) with
      | some i, some e => some (i && !e)
      | _, _ => none
    else some true
  else
    match (if args.filterInclude.isEmpty then some true
           else anyOpt args.filterInclude fun p =>
             boundary_rule name p args.noWildcards args.noWildcardsBoundary),
          anyOpt args.filterExclude
            (fun p => boundary_rule name p args.noWildcards
              args.noWildcardsBoundary) with
    | some i, some e => some (i && !e)
    | _, _ => none

/-- The boundary behaviour exactly as the claim words it, over an abstract
match result `m p`: a pattern containing `*` or `?` matches only when the
name has as many `/` as the pattern; a pattern with neither wildcard is
matched with no boundary restriction. -/
def specBoundaryRule (name p : List Char) (m : List Char → Bool) : Bool :=
  if p.contains '*' || p.contains '?' then
    (name.count '/' == p.count '/') && m p
  else m p

/-- `anyOpt` with everywhere-defined matcher is `List.any`. -/
theorem anyOpt_eq_any (l : List (List Char)) (f : List Char → Option Bool)
    (g : List Char → Bool) (h : ∀ p ∈ l, f p = some (g p)) :
    anyOpt l f = some (l.any g) := by
  induction l with
  | nil => rfl
  | cons p ps ih =>
    have hp := h p (List.mem_cons_self _ _)
    have ih' := ih fun x hx => h x (List.mem_cons_of_mem _ hx)
    rw [anyOpt, hp]
    cases hg : g p with
    | true => simp [hg]
    | false => simp [hg, ih']

/-- With boundary checking on, `boundary_rule` is `specBoundaryRule`. -/
theorem boundary_rule_spec (name p : List Char) (nw : Bool) (m : List Char → Bool)
    (hm : match_pattern name p nw = some (m p)) :
    boundary_rule name p nw true = some (specBoundaryRule name p m) := by
  rw [boundary_rule, specBoundaryRule]
  by_cases hw : p.contains '*' || p.contains '?'
  · simp only [hw, Bool.true_and, if_pos trivial]
    by_cases hs : name.count '/' == p.count '/'
    · simp [hs, hm]
    · simp only [Bool.not_eq_true] at hs
      simp [hs, hm]
  · simp only [Bool.not_eq_true] at hw
    have hw2 : ¬('*' ∈ p ∨ '?' ∈ p) := by simpa using hw
    simp [hw2, hm]

/-- C9: when `no-wildcards-boundary` is set, the filesystem-side
`apply_filters` restricts exactly the patterns containing `*` or `?` to
names with the same number of `/` as the pattern, and matches
wildcard-free patterns with no boundary restriction; include (empty
accepts all) and exclude lists combine as usual.  `m` abstracts the
underlying `match_pattern` verdicts. -/
theorem apply_filters_boundary (name : List Char) (args : ZipArgsModel)
    (m : List Char → Bool)
    (hb : args.noWildcardsBoundary = true)
    (hmi : ∀ p ∈ args.filterInclude,
      match_pattern name p args.noWildcards = some (m p))
    (hme : ∀ p ∈ args.filterExclude,
      match_pattern name p args.noWildcards = some (m p)) :
    apply_filters name args false =
      some ((args.filterInclude.isEmpty ||
             args.filterInclude.any fun p => specBoundaryRule name p m) &&
            !(args.filterExclude.any fun p => specBoundaryRule name p m)) := by
  have hinc : anyOpt args.filterInclude
      (fun p => boundary_rule name p args.noWildcards args.noWildcardsBoundary) =
      some (args.filterInclude.any fun p => specBoundaryRule name p m) := by
    rw [hb]
    exact anyOpt_eq_any _ _ _ fun p hp => boundary_rule_spec name p _ m (hmi p hp)
  have hexc : anyOpt args.filterExclude
      (fun p => boundary_rule name p args.noWildcards args.noWildcardsBoundary) =
      some (args.filterExclude.any fun p => specBoundaryRule name p m) := by
    rw [hb]
    exact anyOpt_eq_any _ _ _ fun p hp => boundary_rule_spec name p _ m (hme p hp)
  rw [apply_filters]
  by_cases he : args.filterInclude.isEmpty
  · simp [he, hexc]
  · simp [he, hinc, hexc]

/-- Witness for `apply_filters_boundary`: boundary on, include pattern
`a/*` (one slash), exclude pattern `b`, name `a/x`. -/
theorem apply_filters_boundary_witness :
    (({ filterInclude := [['a', '/', '*']], filterExclude := [['b']],
        noWildcards := false, noWildcardsBoundary := true,
        command := .Add } : ZipArgsModel).noWildcardsBoundary = true) ∧
    apply_filters ['a', '/', 'x']
        { filterInclude := [['a', '/', '*']], filterExclude := [['b']],
          noWildcards := false, noWildcardsBoundary := true, command := .Add }
        false =
      some ((([['a', '/', '*']] : List (List Char)).isEmpty ||
             ([['a', '/', '*']] : List (List Char)).any fun p =>
               specBoundaryRule ['a', '/', 'x'] p fun q =>
                 (match_pattern ['a', '/', 'x'] q false).getD false) &&
            !(([['b']] : List (List Char)).any fun p =>
               specBoundaryRule ['a', '/', 'x'] p fun q =>
                 (match_pattern ['a', '/', 'x'] q false).getD false)) :=
  ⟨rfl, apply_filters_boundary ['a', '/', 'x'] _
    (fun q => (match_pattern ['a', '/', 'x'] q false).getD false)
    rfl (by decide) (by decide)⟩

/-! ## File options (src/zip.rs, `FileOptions`) -/

/-- `FileOptions` (src/zip.rs:340-365).  The `HashSet<String>` of
non-compressed extensions is modelled as a list of character lists (only
membership is consulted); strings are character lists, byte vectors byte
lists. -/
structure FileOptions where
  compression_method : CompressionMethod
  password : Option (List Char)
  compression_level : Nat
  modification_time : Option (Nat × Nat)
  convert_lf_to_crlf : Bool
  convert_crlf_to_lf : Bool
  external_attr : Nat
  extra_field : List Nat
  no_extra_field : Bool
  store_symlinks : Bool
  no_compress_extensions : List (List Char)
  skip_compression : Bool
  compress_size : Nat
  uncompress_size : Nat
  crc32 : Nat
  compression_level_specified : Bool
deriving DecidableEq

/-- The default non-compressed suffix set of `FileOptions::new`
(src/zip.rs:374-380): `.zip .Z .zoo .arc .arj`. -/
def defaultNoCompressExtensions : List (List Char) :=
  [['.', 'z', 'i', 'p'], ['.', 'Z'], ['.', 'z', 'o', 'o'],
   ['.', 'a', 'r', 'c'], ['.', 'a', 'r', 'j']]

/-- `FileOptions::new` (src/zip.rs:368-384): Deflate, level 6, default
suffix set, level not externally specified, everything else defaulted. -/
def FileOptions.new : FileOptions where
  compression_method := .Deflated
  password := none
  compression_level := 6
  modification_time := none
  convert_lf_to_crlf := false
  convert_crlf_to_lf := false
  external_attr := 0
  extra_field := []
  no_extra_field := false
  store_symlinks := false
  no_compress_extensions := defaultNoCompressExtensions
  skip_compression := false
  compress_size := 0
  uncompress_size := 0
  crc32 := 0
  compression_level_specified := false

/-- `FileOptions::with_compression` (src/zip.rs:475-488): set the method;
when the level was not externally specified, reset it to the method's
default (Stored 0, Deflate 6, Bzip2 9). -/
def FileOptions.with_compression (opts : FileOptions)
    (method : CompressionMethod) : FileOptions :=
  { opts with
    compression_method := method
    compression_level :=
      if opts.compression_level_specified then opts.compression_level
      else
        match method with
        | .Stored => 0
        | .Deflated => 6
        | .Bzip2 => 9 }

/-- `FileOptions::with_compression_level` (src/zip.rs:489-492). -/
def FileOptions.with_compression_level (opts : FileOptions)
    (level : Nat) : FileOptions :=
  { opts with compression_level := level, compression_level_specified := true }

/-- `FileOptions::optimize_compression_level_for_size` (src/zip.rs:495-521):
no-op when the level was externally specified; otherwise the level is chosen
by the Rust range match `0..=100 => 1, 101..=1024 => 1, 1025..=10240 => 2,
10241..=102400 => 3, _ => 6` on the file size. -/
def FileOptions.optimize_compression_level_for_size (opts : FileOptions)
    (file_size : Nat) : FileOptions :=
  if opts.compression_level_specified then opts
  else
    { opts with
      compression_level :=
        if file_size ≤ 100 then 1
        else if 101 ≤ file_size ∧ file_size ≤ 1024 then 1
        else if 1025 ≤ file_size ∧ file_size ≤ 10240 then 2
        else if 10241 ≤ file_size ∧ file_size ≤ 102400 then 3
        else 6 }

/-- The size-to-level map exactly as the claim words it: up to 100 bytes →
1, up to 1 KiB → 1, up to 10 KiB → 2, up to 100 KiB → 3, else 6. -/
def specSizeLevel (size : Nat) : Nat :=
  if size ≤ 100 then 1
  else if size ≤ 1024 then 1
  else if size ≤ 10240 then 2
  else if size ≤ 102400 then 3
  else 6

/-- C7: when the level was not externally specified,
`optimize_compression_level_for_size` sets the level purely as the claimed
function of the file size; after `with_compression_level` the options are
left unchanged for every file size. -/
theorem optimize_compression_level_policy (opts : FileOptions)
    (size level : Nat) :
    opts.optimize_compression_level_for_size size =
      (if opts.compression_level_specified then opts
       else { opts with compression_level := specSizeLevel size }) ∧
    (opts.with_compression_level level).optimize_compression_level_for_size
      size = opts.with_compression_level level := by
  constructor
  · rw [FileOptions.optimize_compression_level_for_size]
    cases hs : opts.compression_level_specified with
    | true => simp [hs]
    | false =>
      simp only [hs, Bool.false_eq_true, if_false]
      have hlev : (if size ≤ 100 then 1
          else if 101 ≤ size ∧ size ≤ 1024 then 1
          else if 1025 ≤ size ∧ size ≤ 10240 then 2
          else if 10241 ≤ size ∧ size ≤ 102400 then 3
          else 6) = specSizeLevel size := by
        rw [specSizeLevel]
        split_ifs <;> omega
      rw [hlev]
  · rw [FileOptions.optimize_compression_level_for_size]
    simp [FileOptions.with_compression_level]

/-! ## `FileOptions::set_file_path` (src/zip.rs:386-436)

The function reads the filesystem (modification time, Unix mode, file size,
file contents for the CRC) and the path.  Those reads are inputs of the
model: a `PathModel` carries the file name (final path component), the
`is_dir`/`is_file` flags, the size, the local and Unix modification times,
the permission bits and the CRC-32 of the contents (`caculate_crc32`
streams the file; the content itself is not modelled, only its CRC). -/

/-- The filesystem facts `set_file_path` consumes about one path. -/
structure PathModel where
  fileName : List Char
  isDir : Bool
  isFile : Bool
  fileSize : Nat
  mtime : LocalDateTime
  mtimeUnix : Nat
  modeBits : Nat
  crcOfContents : Nat

/-- The byte list built by `set_ut_extra_field` (src/zip.rs:542-557):
header id 0x5455 LE, data size 5, flag 0x01 (modtime present), then the
Unix modification time as `u32` LE. -/
def ut_extra_field (mtimeUnix : Nat) : List Nat :=
  [0x55, 0x54, 5, 0, 0x01] ++ u32_le_bytes (mtimeUnix % 2 ^ 32)

/-- The characters after the last `.` of a file name's tail, if any
(`none` when no `.` occurs): the scan underlying `Path::extension`. -/
def afterLastDot : List Char → Option (List Char)
  | [] => none
  | c :: cs =>
    match afterLastDot cs with
    | some e => some e
    | none => if c = '.' then some cs else none

/-- `Path::extension` on a file name: split at the last `.`, except that a
leading `.` (hidden files) is not a separator and `..` has no extension.
So `.zip` has NO extension while `a.zip` has extension `zip`. -/
def extensionOf (name : List Char) : Option (List Char) :=
  match name with
  | [] => none
  | c0 :: rest => if c0 :: rest = ['.', '.'] then none else afterLastDot rest

/-- The extension normalisation of `set_file_path` (src/zip.rs:402-409):
no extension becomes the empty string, an extension not starting with `.`
gets one prepended. -/
def normalizedExtension (name : List Char) : List Char :=
  match extensionOf name with
  | none => []
  | some e => if e.head? = some '.' then e else '.' :: e

/-- Embedding of `FileOptions::set_file_path` (src/zip.rs:386-436), in the
source's statement order: set the DOS modification time; unless
`no_extra_field`, set the UT extra field; set the Unix/DOS external
attributes; directories are Stored; a normalised extension found in
`no_compress_extensions` forces Stored; for regular files record size and
content CRC and, when the method is Deflate, optimise the level for the
size.  (Debug logging omitted.) -/
def FileOptions.set_file_path (opts : FileOptions) (p : PathModel) : FileOptions :=
  let o1 := { opts with
    modification_time := some (get_file_modification_time p.mtime) }
  let o2 :=
    if !o1.no_extra_field then { o1 with extra_field := ut_extra_field p.mtimeUnix }
    else o1
  let o3 := { o2 with
    external_attr :=
      ((p.modeBits &&& 0xFFFF) <<< 16) ||| (if p.isDir then 0x10 else 0x20) }
  let o4 := if p.isDir then o3.with_compression .Stored else o3
  let o5 :=
    if normalizedExtension p.fileName ∈ o4.no_compress_extensions then
      o4.with_compression .Stored
    else o4
  if p.isFile then
    let o6 := { o5 with uncompress_size := p.fileSize, crc32 := p.crcOfContents }
    if o6.compression_method = .Deflated then
      o6.optimize_compression_level_for_size p.fileSize
    else o6
  else o5

/-- A dot-free list gives `afterLastDot = none`. -/
theorem afterLastDot_of_no_dot (tl : List Char) (h : '.' ∉ tl) :
    afterLastDot tl = none := by
  induction tl with
  | nil => rfl
  | cons c cs ih =>
    have hc : ¬c = '.' := fun e => h (by simp [e])
    have ih2 := ih fun hx => h (List.mem_cons_of_mem _ hx)
    simp [afterLastDot, ih2, hc]

/-- `afterLastDot` finds the suffix after the last dot. -/
theorem afterLastDot_append (pre tl : List Char) (h : '.' ∉ tl) :
    afterLastDot (pre ++ '.' :: tl) = some tl := by
  induction pre with
  | nil => simp [afterLastDot, afterLastDot_of_no_dot tl h]
  | cons c cs ih => simp [afterLastDot, ih]

/-- A file name that ends in `.`-then-a-dot-free-nonempty-tail, with at
least one character before the dot, normalises to exactly that suffix. -/
theorem normalizedExtension_of_suffix (name tl : List Char)
    (hsuf : ('.' :: tl) <:+ name) (hne : tl ≠ []) (hnd : '.' ∉ tl)
    (hlen : ('.' :: tl).length < name.length) :
    normalizedExtension name = '.' :: tl := by
  obtain ⟨pre, hpre⟩ := hsuf
  cases pre with
  | nil =>
    simp only [List.nil_append] at hpre
    rw [← hpre] at hlen
    simp at hlen
  | cons c0 pre2 =>
    have hname : name = c0 :: (pre2 ++ '.' :: tl) := by simp [← hpre]
    have hnotdd : ¬(c0 :: (pre2 ++ '.' :: tl) = ['.', '.']) := by
      intro hdd
      have := congrArg List.length hdd
      simp at this
      cases tl with
      | nil => exact hne rfl
      | cons t ts => simp at this; omega
    rw [normalizedExtension, hname, extensionOf]
    simp only [hnotdd, if_false]
    rw [afterLastDot_append pre2 tl hnd]
    cases tl with
    | nil => exact absurd rfl hne
    | cons t ts =>
      have ht : ¬t = '.' := fun e => hnd (by simp [e])
      simp [ht]

/-- C8, counterexample: a file named exactly `.zip` ends in the default
excluded suffix `.zip`, but `Path::extension` treats the leading dot of a
hidden file as part of the stem and returns no extension, so the suffix
check never fires and the method remains Deflate. -/
theorem dotfile_suffix_not_stored :
    (['.', 'z', 'i', 'p'] : List Char) <:+ ['.', 'z', 'i', 'p'] ∧
    (['.', 'z', 'i', 'p'] : List Char) ∈ defaultNoCompressExtensions ∧
    (FileOptions.new.set_file_path
        { fileName := ['.', 'z', 'i', 'p'], isDir := false, isFile := true,
          fileSize := 2048, mtime := ⟨2024, 1, 2, 3, 4, 6⟩,
          mtimeUnix := 1704164646, modeBits := 420,
          crcOfContents := 305419896 }).compression_method = .Deflated := by
  refine ⟨⟨[], rfl⟩, by decide, by decide⟩

/-- C8 (amended): for every file whose name ends in one of the default
excluded suffixes `.zip .Z .zoo .arc .arj` with at least one character
before the suffix, `set_file_path` leaves the compression method Stored,
whatever method was requested beforehand (a file named exactly like a
suffix, e.g. the hidden file `.zip`, is the one exception: it has no
`Path::extension`, so it is not excluded). -/
theorem set_file_path_suffix_forces_stored (opts : FileOptions) (p : PathModel)
    (sfx : List Char)
    (hset : opts.no_compress_extensions = defaultNoCompressExtensions)
    (hmem : sfx ∈ defaultNoCompressExtensions)
    (hsuf : sfx <:+ p.fileName)
    (hlen : sfx.length < p.fileName.length) :
    (opts.set_file_path p).compression_method = .Stored := by
  have hext : normalizedExtension p.fileName = sfx := by
    fin_cases hmem <;>
      exact normalizedExtension_of_suffix _ _ hsuf (by decide) (by decide) hlen
  have hmem2 : sfx ∈ opts.no_compress_extensions := by rw [hset]; exact hmem
  by_cases hdir : p.isDir <;> by_cases hfile : p.isFile <;>
      by_cases hnef : opts.no_extra_field <;>
    simp [FileOptions.set_file_path, hdir, hfile, hnef, hext, hmem2,
      FileOptions.with_compression, FileOptions.optimize_compression_level_for_size]

/-- Witness for `set_file_path_suffix_forces_stored`: file `a.zip`. -/
theorem set_file_path_suffix_forces_stored_witness :
    FileOptions.new.no_compress_extensions = defaultNoCompressExtensions ∧
    (['.', 'z', 'i', 'p'] : List Char) ∈ defaultNoCompressExtensions ∧
    (['.', 'z', 'i', 'p'] : List Char) <:+ ['a', '.', 'z', 'i', 'p'] ∧
    (['.', 'z', 'i', 'p'] : List Char).length <
      (['a', '.', 'z', 'i', 'p'] : List Char).length ∧
    (FileOptions.new.set_file_path
        { fileName := ['a', '.', 'z', 'i', 'p'], isDir := false, isFile := true,
          fileSize := 5, mtime := ⟨2024, 1, 1, 0, 0, 0⟩, mtimeUnix := 0,
          modeBits := 420, crcOfContents := 0 }).compression_method = .Stored :=
  ⟨rfl, by decide, ⟨['a'], rfl⟩, by decide,
    set_file_path_suffix_forces_stored _ _ ['.', 'z', 'i', 'p'] rfl
      (by decide) ⟨['a'], rfl⟩ (by decide)⟩

end Utzip
